import Mathlib

/-!
Verification of the `pgutils` repository: the `Query` statement builder
(`src/query.rs`) and the migration runner (`internal/migrate/src/lib.rs`).

The builder is embedded with its exact state: `args` (parameter values,
modelled as opaque `Nat` ids standing for the boxed `ToSql` values),
`arg_indexes` (byte offsets of placeholders), `buffer` (accumulated SQL
text, as a list of characters; byte positions are tracked via UTF-8 sizes
exactly as Rust's `char::len_utf8`), `cursor` and `separated`.
Builder call sequences are deeply embedded as lists of `Op`, where a
fragment (`Fragment` impls in the source) is literal text with attached
values, a grouping closure (itself a list of builder calls), or a
fully-built sub-query (itself given by the call sequence that builds it).
Rendering (`impl Display for Query`) is a function to `Option String`;
`none` models a Rust panic (out-of-range byte slice).
-/

namespace Pgutils

/-- The `Query` struct of `src/query.rs` (lines 5-12). `args` holds opaque
ids for the boxed `ToSql` values; `buffer` is the accumulated text and all
byte arithmetic uses `Char.utf8Size`, matching `char::len_utf8`. -/
structure Query where
  args : List Nat
  arg_indexes : List Nat
  buffer : List Char
  cursor : Nat
  separated : Bool
deriving Repr, DecidableEq

/-- `Query::empty()` / `Default::default()`. -/
def Query.emptyQ : Query := ⟨[], [], [], 0, false⟩

/-- One iteration of the character loop of `Query::append_buffer_with_args`
(query.rs lines 96-103): a `?` records the cursor as a placeholder offset,
any other character goes to the buffer and advances the cursor by its UTF-8
byte length. -/
def qstep (q : Query) (c : Char) : Query :=
  if c = '?' then { q with arg_indexes := q.arg_indexes ++ [q.cursor] }
  else { q with buffer := q.buffer ++ [c], cursor := q.cursor + c.utf8Size }

/-- The character loop of `append_buffer_with_args` over a character list. -/
def appendChars (q : Query) (s : List Char) : Query := s.foldl qstep q

/-- `Query::append_buffer_with_args` (query.rs lines 95-106): run the
character loop, then append the supplied values to `args`. -/
def appendBufferWithArgs (q : Query) (s : String) (args : List Nat) : Query :=
  let q1 := appendChars q s.data
  { q1 with args := q1.args ++ args }

/-- `Query::append_buffer` (query.rs lines 91-93). -/
def appendBuffer (q : Query) (s : String) : Query := appendBufferWithArgs q s []

/-- The shared separator logic of `Query::and` / `Query::or` /
`Query::comma` (query.rs lines 42-85): if `separated`, insert the keyword;
otherwise insert a single space when the buffer is non-empty. -/
def sepJoin (q : Query) (kw : String) : Query :=
  if q.separated then appendBuffer q kw
  else if q.buffer.isEmpty then q
  else appendBuffer q " "

/-- `impl Fragment for Query::push_to_query` (query.rs lines 182-201):
append the spliced query's args, open a parenthesis when `separated`,
extend `arg_indexes` with the spliced offsets shifted by the current
cursor, add the spliced cursor to the cursor, append the spliced buffer
through the character loop, close the parenthesis when `separated`. -/
def spliceQuery (b : Query) (q : Query) : Query :=
  let q1 := { q with args := q.args ++ b.args }
  let q2 := if q1.separated then appendBuffer q1 "(" else q1
  let q3 := { q2 with arg_indexes := q2.arg_indexes ++ b.arg_indexes.map (fun i => i + q2.cursor) }
  let q4 := { q3 with cursor := q3.cursor + b.cursor }
  let q5 := appendChars q4 b.buffer
  if q5.separated then appendBuffer q5 ")" else q5

mutual
/-- A `Fragment` (query.rs lines 130-202): literal text with attached
values (`&str` and the `(&str, T...)` tuple impls, values as opaque ids),
a grouping closure (the `FnOnce(&mut Query)` impl, deeply embedded as the
builder calls it performs), or a fully-built query (the `Query` impl,
given by the call sequence that builds it from `Query::empty()`). -/
inductive Frag : Type where
  | text : String → List Nat → Frag
  | clos : List Op → Frag
  | sub : List Op → Frag

/-- One builder call on a `Query`: `push`, `and`, `or` or `comma`. -/
inductive Op : Type where
  | push : Frag → Op
  | and : Frag → Op
  | or : Frag → Op
  | comma : Frag → Op
end

mutual
/-- `Fragment::push_to_query` for each fragment kind (query.rs lines
134-202). The closure impl (lines 161-180) saves `separated`; when set it
clears the flag, opens a parenthesis, runs the closure, restores the flag
and closes the parenthesis. -/
def pushFrag : Frag → Query → Query
  | Frag.text s args, q => appendBufferWithArgs q s args
  | Frag.clos ops, q =>
    if q.separated then
      appendBuffer { runOps ops (appendBuffer { q with separated := false } "(") with
        separated := true } ")"
    else runOps ops q
  | Frag.sub ops, q => spliceQuery (runOps ops Query.emptyQ) q

/-- One builder call (query.rs lines 28-85): `push` clears `separated` and
inserts a space when the buffer is non-empty; `and`/`or`/`comma` insert
their separator per `sepJoin`, push the fragment, then set `separated`. -/
def runOp : Op → Query → Query
  | Op.push f, q =>
    let q1 : Query := { q with separated := false }
    pushFrag f (if q1.buffer.isEmpty then q1 else appendBuffer q1 " ")
  | Op.and f, q => { pushFrag f (sepJoin q " AND ") with separated := true }
  | Op.or f, q => { pushFrag f (sepJoin q " OR ") with separated := true }
  | Op.comma f, q => { pushFrag f (sepJoin q ",") with separated := true }

/-- Run a sequence of builder calls left to right. -/
def runOps : List Op → Query → Query
  | [], q => q
  | op :: ops, q => runOps ops (runOp op q)
end

/-- Build a query from a call sequence starting at `Query::empty()`.
`Query::new(f)` is `buildQ [Op.push f]`: on an empty, non-separated query
`push` adds no space and just pushes the fragment (query.rs lines 15-40). -/
def buildQ (ops : List Op) : Query := runOps ops Query.emptyQ

/-- Byte length of the buffer, matching Rust's `String::len`. -/
def byteLen (l : List Char) : Nat := (l.map Char.utf8Size).sum

/-- Drop `n` bytes from the front; `none` when `n` overruns the list or
falls inside a character (where Rust slicing panics). -/
def dropBytes : List Char → Nat → Option (List Char)
  | l, 0 => some l
  | [], _ + 1 => none
  | c :: cs, n + 1 =>
    if c.utf8Size ≤ n + 1 then dropBytes cs (n + 1 - c.utf8Size) else none

/-- Take `n` bytes from the front; `none` when `n` overruns the list or
falls inside a character. -/
def takeBytes : List Char → Nat → Option (List Char)
  | _, 0 => some []
  | [], _ + 1 => none
  | c :: cs, n + 1 =>
    if c.utf8Size ≤ n + 1 then (takeBytes cs (n + 1 - c.utf8Size)).map (fun t => c :: t)
    else none

/-- The byte slice `buffer[a..b]` of the `Display` impl; `none` models the
Rust panic on an out-of-range or inverted range. -/
def sliceBytes (l : List Char) (a b : Nat) : Option (List Char) :=
  if a ≤ b then (dropBytes l a).bind (fun t => takeBytes t (b - a)) else none

/-- The window loop of `impl Display for Query` (query.rs lines 109-128):
for each adjacent pair `(a, b)` of `[0] ++ arg_indexes ++ [buffer.len()]`,
write `$c` (and increment `c`) when `a ≠ 0`, then write `buffer[a..b]`. -/
def renderFrom (buf : List Char) : Nat → Nat → List Nat → Option String
  | _, _, [] => some ""
  | c, a, b :: rest =>
    match sliceBytes buf a b with
    | none => none
    | some seg =>
      match renderFrom buf (if a ≠ 0 then c + 1 else c) b rest with
      | none => none
      | some t => some ((if a ≠ 0 then "$" ++ toString c else "") ++ seg.asString ++ t)

/-- `Query::to_string` via the `Display` impl; `none` models a panic. -/
def render (q : Query) : Option String :=
  renderFrom q.buffer 1 0 (q.arg_indexes ++ [byteLen q.buffer])

/-! ## Migration runner (`internal/migrate/src/lib.rs`)

The database is modelled as the list of rows of the bookkeeping
`migrations` table. SQL execution is modelled by an oracle
`exc : String → Bool` saying whether a given statement executes
successfully; the bookkeeping `INSERT` itself fails exactly when a row
with the same version already exists, modelling the `version BIGINT
PRIMARY KEY` constraint that `ensure_table` creates. `ensure_table` is a
no-op here (the table exists), and `get_applied_migrations` returns the
table as stored: its `ORDER BY version` only affects lookup order, and
`version` is the primary key, so `find` is unaffected. -/

/-- The `MigrationError` enum (lib.rs lines 18-34). -/
inductive MigrationError : Type where
  | FilenameError : MigrationError
  | ChecksumError : MigrationError
  | PostgresError : MigrationError
  | ParseIntError : MigrationError
  | IOError : MigrationError
deriving Repr, DecidableEq

/-- The `Migration` record (lib.rs lines 36-42). -/
structure Migration where
  checksum : String
  name : String
  sql : String
  version : Int
deriving Repr, DecidableEq

/-- One row of the bookkeeping `migrations` table (the columns the runner
inserts and reads back; `AppliedMigration` projects out version and
checksum). -/
structure MigRow where
  version : Int
  name : String
  checksum : String
deriving Repr, DecidableEq

/-- Rust's `str::split(";")` at the character level: split the character
list at each `;`, keeping empty pieces (an empty input yields one empty
piece, a trailing `;` yields a trailing empty piece), exactly as the
iterator in `apply_migration`'s loop produces them. -/
def splitSemi : List Char → List (List Char)
  | [] => [[]]
  | c :: rest =>
    if c = ';' then [] :: splitSemi rest
    else
      match splitSemi rest with
      | [] => [[c]]
      | s :: ss => (c :: s) :: ss

/-- Rust's `char::is_whitespace`: the Unicode `White_Space` property —
U+0009..U+000D, U+0020, U+0085, U+00A0, U+1680, U+2000..U+200A, U+2028,
U+2029, U+202F, U+205F and U+3000. -/
def isRustWhitespace (c : Char) : Bool :=
  (0x09 ≤ c.toNat && c.toNat ≤ 0x0D) || c.toNat = 0x20 || c.toNat = 0x85 ||
  c.toNat = 0xA0 || c.toNat = 0x1680 || (0x2000 ≤ c.toNat && c.toNat ≤ 0x200A) ||
  c.toNat = 0x2028 || c.toNat = 0x2029 || c.toNat = 0x202F || c.toNat = 0x205F ||
  c.toNat = 0x3000

/-- Rust's `stmt.trim().is_empty()`: a fragment is blank exactly when all
its characters have the Unicode `White_Space` property (`str::trim`
removes exactly those). -/
def isBlank (s : List Char) : Bool := s.all isRustWhitespace

/-- The statement loop of `Migrator::apply_migration` (lib.rs lines
184-188): walk the fragments of `sql.split(";")` in order, skipping those
that are empty after trimming, executing the rest (untrimmed) until one
fails. Returns whether all succeeded together with the list of statements
actually executed (the failing one, which was attempted, included). -/
def execStmts (exc : String → Bool) : List (List Char) → Bool × List String
  | [] => (true, [])
  | s :: rest =>
    if isBlank s then execStmts exc rest
    else if exc s.asString then
      let r := execStmts exc rest
      (r.1, s.asString :: r.2)
    else (false, [s.asString])

/-- `Migrator::apply_migration` (lib.rs lines 177-200): in a transaction,
execute the non-empty statements of the SQL body split on `;`; if all
succeed, insert the bookkeeping row `(version, name, checksum)` and
commit; the insert fails on a duplicate version (primary key). On any
failure the transaction is not committed: the error is returned and the
table is unchanged. -/
def applyMigration (exc : String → Bool) (db : List MigRow) (m : Migration) :
    Except MigrationError (List MigRow) :=
  if (execStmts exc (splitSemi m.sql.data)).1 then
    if db.any (fun row => row.version == m.version) then
      Except.error MigrationError.PostgresError
    else Except.ok (db ++ [⟨m.version, m.name, m.checksum⟩])
  else Except.error MigrationError.PostgresError

/-- The outcome of a `migrate` call: `error = none` means `Ok(())`; `db`
is the bookkeeping table afterwards; `applied` lists the versions whose
`apply_migration` committed, in order. -/
structure MigrateOutcome where
  error : Option MigrationError
  db : List MigRow
  applied : List Int
deriving Repr, DecidableEq

/-- The loop of `Migrator::migrate` (lib.rs lines 120-129) over the
records, threading the table; `current` is the snapshot of applied rows
fetched before the loop. An unseen version is applied (`?` propagates the
error); a seen version with equal checksum is skipped; a seen version
with a different checksum returns `ChecksumError` at once. -/
def migrateLoop (exc : String → Bool) (current : List MigRow) :
    List Migration → List MigRow → MigrateOutcome
  | [], db => ⟨none, db, []⟩
  | m :: ms, db =>
    match current.find? (fun a => a.version == m.version) with
    | none =>
      match applyMigration exc db m with
      | Except.ok db1 =>
        let r := migrateLoop exc current ms db1
        ⟨r.error, r.db, m.version :: r.applied⟩
      | Except.error e => ⟨some e, db, []⟩
    | some a =>
      if a.checksum == m.checksum then migrateLoop exc current ms db
      else ⟨some MigrationError.ChecksumError, db, []⟩

/-- `Migrator::migrate` (lib.rs lines 115-132): ensure the table (no-op
here), snapshot the applied rows, then run the loop. -/
def migrate (exc : String → Bool) (migs : List Migration) (db : List MigRow) :
    MigrateOutcome :=
  migrateLoop exc db migs db

/-! ## Concrete builder call sequences used in the theorems -/

/-- `Query::new(("?", 5))`: a single fragment whose `?` sits at byte
offset 0. -/
def leadingPlaceholderOps : List Op := [Op.push (Frag.text "?" [5])]

/-- Splice the built query `Query::new("ab")` into an empty query, then
push the fragment `("?", 1, 2)` (one `?`, two values). -/
def spliceThenUnbalancedOps : List Op :=
  [Op.push (Frag.sub [Op.push (Frag.text "ab" [])]),
   Op.push (Frag.text "?" [1, 2])]

/-- Build `"x"`, splice the built query `Query::new("y")`, then
`and(("z=?", 5))`: a placeholder-bearing fragment appended after a
splice. -/
def placeholderAfterSpliceOps : List Op :=
  [Op.push (Frag.text "x" []),
   Op.push (Frag.sub [Op.push (Frag.text "y" [])]),
   Op.and (Frag.text "z=?" [5])]

/-- The chain of claim C8:
`Query::new("SELECT").comma("a").comma("b").push("FROM t WHERE")
  .and("x=1").and(("y=?", 5))`. -/
def c8Ops : List Op :=
  [Op.push (Frag.text "SELECT" []),
   Op.comma (Frag.text "a" []),
   Op.comma (Frag.text "b" []),
   Op.push (Frag.text "FROM t WHERE" []),
   Op.and (Frag.text "x=1" []),
   Op.and (Frag.text "y=?" [5])]

/-- The structural invariant of the builder state: placeholder offsets
are monotonically non-decreasing, every offset is at most the cursor, and
the buffer's byte length is at most the cursor. -/
def QInv (q : Query) : Prop :=
  q.arg_indexes.Chain' (· ≤ ·) ∧
  (∀ i ∈ q.arg_indexes, i ≤ q.cursor) ∧
  byteLen q.buffer ≤ q.cursor

mutual
/-- A fragment is balanced when every text fragment in it carries exactly
as many values as `?` characters (recursively through closures and
spliced sub-queries). -/
def fragBalanced : Frag → Bool
  | Frag.text s args => s.data.count '?' == args.length
  | Frag.clos ops => opsBalanced ops
  | Frag.sub ops => opsBalanced ops

/-- The fragment of a builder call is balanced. -/
def opBalanced : Op → Bool
  | Op.push f => fragBalanced f
  | Op.and f => fragBalanced f
  | Op.or f => fragBalanced f
  | Op.comma f => fragBalanced f

/-- All calls of a sequence carry balanced fragments. -/
def opsBalanced : List Op → Bool
  | [] => true
  | op :: ops => opBalanced op && opsBalanced ops
end

/-- The non-empty statements of a migration's SQL body: split on `;`,
drop the fragments that are empty after trimming. -/
def nonEmptyStmts (sql : String) : List String :=
  ((splitSemi sql.data).filter (fun s => !isBlank s)).map List.asString

/-- A concrete migration used to instantiate the migration theorems. -/
def mig1 : Migration := ⟨"c1", "init", "CREATE TABLE t (x INT)", 1⟩

/-- A concrete two-statement migration (with a trailing `;`). -/
def mig2 : Migration :=
  ⟨"c2", "seed", "INSERT INTO t VALUES (1); INSERT INTO t VALUES (2);", 2⟩

/-- A bookkeeping row for version 1 whose checksum differs from `mig1`. -/
def driftRow : MigRow := ⟨1, "init", "DIFFERENT"⟩

end Pgutils

namespace Pgutils

/-! ## Library of lemmas about the builder state -/

theorem appendChars_nil (q : Query) : appendChars q [] = q := rfl

theorem appendChars_cons (q : Query) (c : Char) (l : List Char) :
    appendChars q (c :: l) = appendChars (qstep q c) l := rfl

theorem qstep_args (q : Query) (c : Char) : (qstep q c).args = q.args := by
  unfold qstep; split <;> rfl

theorem qstep_separated (q : Query) (c : Char) : (qstep q c).separated = q.separated := by
  unfold qstep; split <;> rfl

theorem appendChars_args (q : Query) (l : List Char) :
    (appendChars q l).args = q.args := by
  induction l generalizing q with
  | nil => rfl
  | cons c l ih => rw [appendChars_cons, ih, qstep_args]

theorem appendChars_separated (q : Query) (l : List Char) :
    (appendChars q l).separated = q.separated := by
  induction l generalizing q with
  | nil => rfl
  | cons c l ih => rw [appendChars_cons, ih, qstep_separated]

theorem qstep_cursor_le (q : Query) (c : Char) : q.cursor ≤ (qstep q c).cursor := by
  unfold qstep; split
  · exact le_refl _
  · exact Nat.le_add_right _ _

theorem appendChars_cursor_le (q : Query) (l : List Char) :
    q.cursor ≤ (appendChars q l).cursor := by
  induction l generalizing q with
  | nil => exact le_refl _
  | cons c l ih => exact le_trans (qstep_cursor_le q c) (ih (qstep q c))

theorem byteLen_append (a b : List Char) : byteLen (a ++ b) = byteLen a + byteLen b := by
  simp [byteLen]

theorem qstep_buffer_extend (q : Query) (c : Char) :
    ∃ t, (qstep q c).buffer = q.buffer ++ t := by
  unfold qstep; split
  · exact ⟨[], by simp⟩
  · exact ⟨[c], rfl⟩

theorem appendChars_buffer_extend (q : Query) (l : List Char) :
    ∃ t, (appendChars q l).buffer = q.buffer ++ t := by
  induction l generalizing q with
  | nil => exact ⟨[], by simp [appendChars_nil]⟩
  | cons c l ih =>
    obtain ⟨t1, h1⟩ := qstep_buffer_extend q c
    obtain ⟨t2, h2⟩ := ih (qstep q c)
    exact ⟨t1 ++ t2, by rw [appendChars_cons, h2, h1, List.append_assoc]⟩

theorem qstep_idx_extend (q : Query) (c : Char) :
    ∃ t, (qstep q c).arg_indexes = q.arg_indexes ++ t ∧ ∀ i ∈ t, q.cursor ≤ i := by
  unfold qstep; split
  · exact ⟨[q.cursor], rfl, by simp⟩
  · exact ⟨[], by simp⟩

theorem appendChars_idx_extend (q : Query) (l : List Char) :
    ∃ t, (appendChars q l).arg_indexes = q.arg_indexes ++ t ∧ ∀ i ∈ t, q.cursor ≤ i := by
  induction l generalizing q with
  | nil => exact ⟨[], by simp [appendChars_nil]⟩
  | cons c l ih =>
    obtain ⟨t1, h1, hle1⟩ := qstep_idx_extend q c
    obtain ⟨t2, h2, hle2⟩ := ih (qstep q c)
    refine ⟨t1 ++ t2, by rw [appendChars_cons, h2, h1, List.append_assoc], ?_⟩
    intro i hi
    rcases List.mem_append.mp hi with h | h
    · exact hle1 i h
    · exact le_trans (qstep_cursor_le q c) (hle2 i h)

theorem qstep_inv (q : Query) (c : Char) (h : QInv q) : QInv (qstep q c) := by
  obtain ⟨hc, hle, hb⟩ := h
  unfold qstep QInv
  by_cases hq : c = '?'
  · simp only [if_pos hq]
    refine ⟨?_, ?_, ?_⟩ <;> dsimp only
    · rw [List.chain'_append]
      refine ⟨hc, List.chain'_singleton _, ?_⟩
      intro x hx y hy
      obtain ⟨hne, hxl⟩ := List.mem_getLast?_eq_getLast hx
      have hxm : x ∈ q.arg_indexes := hxl ▸ List.getLast_mem hne
      have hxc := hle x hxm
      have hy' : q.cursor = y := by simpa using hy
      omega
    · intro i hi
      rcases List.mem_append.mp hi with h | h
      · exact hle i h
      · have : i = q.cursor := by simpa using h
        omega
    · exact hb
  · simp only [if_neg hq]
    refine ⟨hc, ?_, ?_⟩ <;> dsimp only
    · intro i hi
      exact le_trans (hle i hi) (Nat.le_add_right _ _)
    · rw [byteLen_append]
      have h1 : byteLen [c] = c.utf8Size := by simp [byteLen]
      omega

theorem appendChars_inv (q : Query) (l : List Char) (h : QInv q) :
    QInv (appendChars q l) := by
  induction l generalizing q with
  | nil => exact h
  | cons c l ih => exact ih (qstep q c) (qstep_inv q c h)

theorem qstep_noQ (q : Query) (c : Char) (h : '?' ∉ q.buffer) :
    '?' ∉ (qstep q c).buffer := by
  unfold qstep
  by_cases hq : c = '?'
  · simpa [if_pos hq] using h
  · simp only [if_neg hq]
    intro hm
    rcases List.mem_append.mp hm with hm | hm
    · exact h hm
    · simp at hm; exact hq hm.symm

theorem appendChars_noQ (q : Query) (l : List Char) (h : '?' ∉ q.buffer) :
    '?' ∉ (appendChars q l).buffer := by
  induction l generalizing q with
  | nil => exact h
  | cons c l ih => exact ih (qstep q c) (qstep_noQ q c h)

theorem appendChars_idx_len (q : Query) (l : List Char) :
    (appendChars q l).arg_indexes.length = q.arg_indexes.length + l.count '?' := by
  induction l generalizing q with
  | nil => simp [appendChars_nil]
  | cons c l ih =>
    rw [appendChars_cons, ih]
    unfold qstep
    by_cases hq : c = '?'
    · simp [if_pos hq, hq, List.count_cons]
      omega
    · have : (c == '?') = false := by simp [hq]
      simp [if_neg hq, List.count_cons, this]

theorem appendChars_noQ_eq (q : Query) (l : List Char) (h : ∀ c ∈ l, c ≠ '?') :
    appendChars q l =
      { q with buffer := q.buffer ++ l, cursor := q.cursor + byteLen l } := by
  induction l generalizing q with
  | nil => simp [appendChars_nil, byteLen]
  | cons c l ih =>
    have hc : c ≠ '?' := h c (List.mem_cons_self c l)
    rw [appendChars_cons, ih (qstep q c) (fun d hd => h d (List.mem_cons_of_mem c hd))]
    unfold qstep
    simp only [if_neg hc]
    simp [byteLen, List.append_assoc]
    omega

theorem QInv_args_update (q : Query) (a : List Nat) : QInv { q with args := a } ↔ QInv q :=
  Iff.rfl

theorem QInv_sep_update (q : Query) (b : Bool) : QInv { q with separated := b } ↔ QInv q :=
  Iff.rfl

theorem appendBufferWithArgs_inv (q : Query) (s : String) (a : List Nat) (h : QInv q) :
    QInv (appendBufferWithArgs q s a) :=
  appendChars_inv q s.data h

theorem appendBuffer_inv (q : Query) (s : String) (h : QInv q) : QInv (appendBuffer q s) :=
  appendBufferWithArgs_inv q s [] h

theorem emptyQ_inv : QInv Query.emptyQ := by
  refine ⟨?_, ?_, ?_⟩ <;> simp [Query.emptyQ, byteLen]

theorem sepJoin_inv (q : Query) (kw : String) (h : QInv q) : QInv (sepJoin q kw) := by
  unfold sepJoin
  split
  · exact appendBuffer_inv q kw h
  · split
    · exact h
    · exact appendBuffer_inv q " " h

theorem splice_mid_inv (q2 b : Query) (h2 : QInv q2) (hb : QInv b) :
    QInv { q2 with
      arg_indexes := q2.arg_indexes ++ b.arg_indexes.map (fun i => i + q2.cursor),
      cursor := q2.cursor + b.cursor } := by
  obtain ⟨hc2, hle2, hb2⟩ := h2
  obtain ⟨hcb, hleb, hbb⟩ := hb
  refine ⟨?_, ?_, ?_⟩ <;> dsimp only
  · rw [List.chain'_append]
    refine ⟨hc2, ?_, ?_⟩
    · rw [List.chain'_map]
      exact List.Chain'.imp (fun a b h => Nat.add_le_add_right h _) hcb
    · intro x hx y hy
      obtain ⟨hne, hxl⟩ := List.mem_getLast?_eq_getLast hx
      have hxm : x ∈ q2.arg_indexes := hxl ▸ List.getLast_mem hne
      have hxc := hle2 x hxm
      have hym : y ∈ b.arg_indexes.map (fun i => i + q2.cursor) :=
        List.mem_of_mem_head? hy
      obtain ⟨j, _, hj⟩ := List.mem_map.mp hym
      omega
  · intro i hi
    rcases List.mem_append.mp hi with h | h
    · exact le_trans (hle2 i h) (Nat.le_add_right _ _)
    · obtain ⟨j, hjm, hj⟩ := List.mem_map.mp h
      have := hleb j hjm
      omega
  · exact le_trans hb2 (Nat.le_add_right _ _)

theorem ite_append_inv (c : Prop) [Decidable c] (q : Query) (s : String) (h : QInv q) :
    QInv (if c then appendBuffer q s else q) := by
  split
  · exact appendBuffer_inv q s h
  · exact h

theorem spliceQuery_inv (b q : Query) (hb : QInv b) (hq : QInv q) :
    QInv (spliceQuery b q) := by
  unfold spliceQuery
  exact ite_append_inv _ _ ")"
    (appendChars_inv _ b.buffer
      (splice_mid_inv _ b
        (ite_append_inv _ _ "(" ((QInv_args_update q (q.args ++ b.args)).mpr hq)) hb))

mutual
theorem pushFrag_inv : ∀ (f : Frag) (q : Query), QInv q → QInv (pushFrag f q)
  | Frag.text s a, q, h => appendBufferWithArgs_inv q s a h
  | Frag.clos ops, q, h => by
    unfold pushFrag
    split
    · exact appendBuffer_inv _ ")"
        ((QInv_sep_update _ true).mpr
          (runOps_inv ops _ (appendBuffer_inv _ "(" ((QInv_sep_update q false).mpr h))))
    · exact runOps_inv ops q h
  | Frag.sub ops, q, h =>
    spliceQuery_inv _ q (runOps_inv ops Query.emptyQ emptyQ_inv) h

theorem runOp_inv : ∀ (op : Op) (q : Query), QInv q → QInv (runOp op q)
  | Op.push f, q, h => by
    unfold runOp
    apply pushFrag_inv
    split
    · exact (QInv_sep_update q false).mpr h
    · exact appendBuffer_inv _ " " ((QInv_sep_update q false).mpr h)
  | Op.and f, q, h =>
    (QInv_sep_update _ true).mpr (pushFrag_inv f _ (sepJoin_inv q " AND " h))
  | Op.or f, q, h =>
    (QInv_sep_update _ true).mpr (pushFrag_inv f _ (sepJoin_inv q " OR " h))
  | Op.comma f, q, h =>
    (QInv_sep_update _ true).mpr (pushFrag_inv f _ (sepJoin_inv q "," h))

theorem runOps_inv : ∀ (ops : List Op) (q : Query), QInv q → QInv (runOps ops q)
  | [], _, h => h
  | op :: ops, q, h => runOps_inv ops (runOp op q) (runOp_inv op q h)
end

theorem ite_append_noQ (c : Prop) [Decidable c] (q : Query) (s : String)
    (h : '?' ∉ q.buffer) : '?' ∉ (if c then appendBuffer q s else q).buffer := by
  split
  · exact appendChars_noQ q s.data h
  · exact h

theorem spliceQuery_noQ (b q : Query) (h : '?' ∉ q.buffer) :
    '?' ∉ (spliceQuery b q).buffer := by
  unfold spliceQuery
  exact ite_append_noQ _ _ ")"
    (appendChars_noQ _ b.buffer (ite_append_noQ _ _ "(" h))

mutual
theorem pushFrag_noQ : ∀ (f : Frag) (q : Query), '?' ∉ q.buffer → '?' ∉ (pushFrag f q).buffer
  | Frag.text s a, q, h => appendChars_noQ q s.data h
  | Frag.clos ops, q, h => by
    unfold pushFrag
    split
    · exact appendChars_noQ _ ")".data (runOps_noQ ops _ (appendChars_noQ _ "(".data h))
    · exact runOps_noQ ops q h
  | Frag.sub ops, q, h => spliceQuery_noQ _ q h

theorem runOp_noQ : ∀ (op : Op) (q : Query), '?' ∉ q.buffer → '?' ∉ (runOp op q).buffer
  | Op.push f, q, h => by
    unfold runOp
    apply pushFrag_noQ
    split
    · exact h
    · exact appendChars_noQ _ " ".data h
  | Op.and f, q, h => by
    have h1 : '?' ∉ (sepJoin q " AND ").buffer := by
      unfold sepJoin
      split
      · exact appendChars_noQ _ _ h
      · split
        · exact h
        · exact appendChars_noQ _ _ h
    exact pushFrag_noQ f _ h1
  | Op.or f, q, h => by
    have h1 : '?' ∉ (sepJoin q " OR ").buffer := by
      unfold sepJoin
      split
      · exact appendChars_noQ _ _ h
      · split
        · exact h
        · exact appendChars_noQ _ _ h
    exact pushFrag_noQ f _ h1
  | Op.comma f, q, h => by
    have h1 : '?' ∉ (sepJoin q ",").buffer := by
      unfold sepJoin
      split
      · exact appendChars_noQ _ _ h
      · split
        · exact h
        · exact appendChars_noQ _ _ h
    exact pushFrag_noQ f _ h1

theorem runOps_noQ : ∀ (ops : List Op) (q : Query), '?' ∉ q.buffer → '?' ∉ (runOps ops q).buffer
  | [], _, h => h
  | op :: ops, q, h => runOps_noQ ops (runOp op q) (runOp_noQ op q h)
end

theorem buildQ_noQ (ops : List Op) : '?' ∉ (buildQ ops).buffer :=
  runOps_noQ ops Query.emptyQ (by simp [Query.emptyQ])

theorem appendBuffer_args (q : Query) (s : String) : (appendBuffer q s).args = q.args := by
  show (appendChars q s.data).args ++ [] = q.args
  rw [List.append_nil, appendChars_args]

theorem appendBuffer_idx_len (q : Query) (s : String) :
    (appendBuffer q s).arg_indexes.length = q.arg_indexes.length + s.data.count '?' :=
  appendChars_idx_len q s.data

theorem ite_append_args (c : Prop) [Decidable c] (q : Query) (s : String) :
    (if c then appendBuffer q s else q).args = q.args := by
  split
  · exact appendBuffer_args q s
  · rfl

theorem ite_append_idx_len (c : Prop) [Decidable c] (q : Query) (s : String)
    (h : s.data.count '?' = 0) :
    (if c then appendBuffer q s else q).arg_indexes.length = q.arg_indexes.length := by
  split
  · rw [appendBuffer_idx_len, h]
    omega
  · rfl

theorem spliceQuery_args_len (b q : Query) :
    (spliceQuery b q).args.length = q.args.length + b.args.length := by
  simp only [spliceQuery]
  rw [ite_append_args]
  rw [appendChars_args]
  dsimp only
  rw [ite_append_args]
  dsimp only
  rw [List.length_append]

theorem spliceQuery_idx_len (b q : Query) (hb : '?' ∉ b.buffer) :
    (spliceQuery b q).arg_indexes.length =
      q.arg_indexes.length + b.arg_indexes.length := by
  have hc : b.buffer.count '?' = 0 := List.count_eq_zero.mpr hb
  simp only [spliceQuery]
  rw [ite_append_idx_len _ _ ")" (by decide)]
  rw [appendChars_idx_len, hc]
  dsimp only
  rw [List.length_append, List.length_map]
  rw [ite_append_idx_len _ _ "(" (by decide)]
  dsimp only
  omega

theorem sepJoin_args (q : Query) (kw : String) : (sepJoin q kw).args = q.args := by
  unfold sepJoin
  split
  · exact appendBuffer_args q kw
  · split
    · rfl
    · exact appendBuffer_args q " "

theorem sepJoin_idx_len (q : Query) (kw : String) (h : kw.data.count '?' = 0) :
    (sepJoin q kw).arg_indexes.length = q.arg_indexes.length := by
  unfold sepJoin
  split
  · rw [appendBuffer_idx_len, h]
    omega
  · split
    · rfl
    · rw [appendBuffer_idx_len]
      have h0 : " ".data.count '?' = 0 := by decide
      omega


theorem sep_update_args (q : Query) (b : Bool) :
    ({ q with separated := b } : Query).args = q.args := rfl

theorem sep_update_idx (q : Query) (b : Bool) :
    ({ q with separated := b } : Query).arg_indexes = q.arg_indexes := rfl

mutual
theorem pushFrag_len : ∀ (f : Frag) (q : Query), fragBalanced f = true →
    (pushFrag f q).args.length + q.arg_indexes.length =
      (pushFrag f q).arg_indexes.length + q.args.length
  | Frag.text s a, q, h => by
    unfold fragBalanced at h
    have hb : s.data.count '?' = a.length := by simpa using h
    have h1 : (pushFrag (Frag.text s a) q).args.length = q.args.length + a.length := by
      show ((appendChars q s.data).args ++ a).length = _
      rw [List.length_append, appendChars_args]
    have h2 : (pushFrag (Frag.text s a) q).arg_indexes.length =
        q.arg_indexes.length + s.data.count '?' := appendChars_idx_len q s.data
    omega
  | Frag.clos ops, q, h => by
    unfold fragBalanced at h
    unfold pushFrag
    split
    · have hA := runOps_len ops (appendBuffer { q with separated := false } "(") h
      have hq0a : (appendBuffer { q with separated := false } "(").args = q.args := by
        rw [appendBuffer_args, sep_update_args]
      have hq0i : (appendBuffer { q with separated := false } "(").arg_indexes.length =
          q.arg_indexes.length := by
        rw [appendBuffer_idx_len, sep_update_idx]
        have h0 : "(".data.count '?' = 0 := by decide
        omega
      have hra : (appendBuffer
          { runOps ops (appendBuffer { q with separated := false } "(") with
            separated := true } ")").args =
          (runOps ops (appendBuffer { q with separated := false } "(")).args := by
        rw [appendBuffer_args, sep_update_args]
      have hri : (appendBuffer
          { runOps ops (appendBuffer { q with separated := false } "(") with
            separated := true } ")").arg_indexes.length =
          (runOps ops (appendBuffer { q with separated := false } "(")).arg_indexes.length := by
        rw [appendBuffer_idx_len, sep_update_idx]
        have h0 : ")".data.count '?' = 0 := by decide
        omega
      rw [hq0a, hq0i] at hA
      rw [hra, hri]
      omega
    · exact runOps_len ops q h
  | Frag.sub ops, q, h => by
    unfold fragBalanced at h
    have hinner := runOps_len ops Query.emptyQ h
    have hz1 : Query.emptyQ.args.length = 0 := rfl
    have hz2 : Query.emptyQ.arg_indexes.length = 0 := rfl
    have hnq := runOps_noQ ops Query.emptyQ (by simp [Query.emptyQ])
    have h1 := spliceQuery_args_len (runOps ops Query.emptyQ) q
    have h2 := spliceQuery_idx_len (runOps ops Query.emptyQ) q hnq
    show (spliceQuery (runOps ops Query.emptyQ) q).args.length + _ =
      (spliceQuery (runOps ops Query.emptyQ) q).arg_indexes.length + _
    omega

theorem runOp_len : ∀ (op : Op) (q : Query), opBalanced op = true →
    (runOp op q).args.length + q.arg_indexes.length =
      (runOp op q).arg_indexes.length + q.args.length
  | Op.push f, q, h => by
    unfold opBalanced at h
    unfold runOp
    have ha : (if ({ q with separated := false } : Query).buffer.isEmpty then
          ({ q with separated := false } : Query)
        else appendBuffer { q with separated := false } " ").args = q.args := by
      split
      · rfl
      · rw [appendBuffer_args, sep_update_args]
    have hi : (if ({ q with separated := false } : Query).buffer.isEmpty then
          ({ q with separated := false } : Query)
        else appendBuffer { q with separated := false } " ").arg_indexes.length =
        q.arg_indexes.length := by
      split
      · rfl
      · rw [appendBuffer_idx_len, sep_update_idx]
        have h0 : " ".data.count '?' = 0 := by decide
        omega
    have hp := pushFrag_len f
      (if ({ q with separated := false } : Query).buffer.isEmpty then
        ({ q with separated := false } : Query)
      else appendBuffer { q with separated := false } " ") h
    rw [ha, hi] at hp
    exact hp
  | Op.and f, q, h => by
    unfold opBalanced at h
    have hp := pushFrag_len f (sepJoin q " AND ") h
    rw [sepJoin_args, sepJoin_idx_len q " AND " (by decide)] at hp
    show ({ pushFrag f (sepJoin q " AND ") with separated := true } : Query).args.length + _ =
      ({ pushFrag f (sepJoin q " AND ") with separated := true } : Query).arg_indexes.length + _
    rw [sep_update_args, sep_update_idx]
    exact hp
  | Op.or f, q, h => by
    unfold opBalanced at h
    have hp := pushFrag_len f (sepJoin q " OR ") h
    rw [sepJoin_args, sepJoin_idx_len q " OR " (by decide)] at hp
    show ({ pushFrag f (sepJoin q " OR ") with separated := true } : Query).args.length + _ =
      ({ pushFrag f (sepJoin q " OR ") with separated := true } : Query).arg_indexes.length + _
    rw [sep_update_args, sep_update_idx]
    exact hp
  | Op.comma f, q, h => by
    unfold opBalanced at h
    have hp := pushFrag_len f (sepJoin q ",") h
    rw [sepJoin_args, sepJoin_idx_len q "," (by decide)] at hp
    show ({ pushFrag f (sepJoin q ",") with separated := true } : Query).args.length + _ =
      ({ pushFrag f (sepJoin q ",") with separated := true } : Query).arg_indexes.length + _
    rw [sep_update_args, sep_update_idx]
    exact hp

theorem runOps_len : ∀ (ops : List Op) (q : Query), opsBalanced ops = true →
    (runOps ops q).args.length + q.arg_indexes.length =
      (runOps ops q).arg_indexes.length + q.args.length
  | [], q, _ => by
    show q.args.length + q.arg_indexes.length = q.arg_indexes.length + q.args.length
    omega
  | op :: ops, q, h => by
    unfold opsBalanced at h
    obtain ⟨h1, h2⟩ := Bool.and_eq_true_iff.mp h
    have ha := runOp_len op q h1
    have hrest := runOps_len ops (runOp op q) h2
    show (runOps ops (runOp op q)).args.length + _ =
      (runOps ops (runOp op q)).arg_indexes.length + _
    omega
end

theorem sep_update_buffer (q : Query) (b : Bool) :
    ({ q with separated := b } : Query).buffer = q.buffer := rfl

theorem appendBuffer_separated (q : Query) (s : String) :
    (appendBuffer q s).separated = q.separated :=
  appendChars_separated q s.data

theorem appendBuffer_buffer_noQ (q : Query) (s : String) (h : ∀ c ∈ s.data, c ≠ '?') :
    (appendBuffer q s).buffer = q.buffer ++ s.data := by
  have := congrArg Query.buffer (appendChars_noQ_eq q s.data h)
  simpa using this

theorem sepJoin_separated (q : Query) (kw : String) :
    (sepJoin q kw).separated = q.separated := by
  unfold sepJoin
  split
  · exact appendBuffer_separated q kw
  · split
    · rfl
    · exact appendBuffer_separated q " "

theorem sepJoin_buffer (q : Query) (kw : String) (hk : ∀ c ∈ kw.data, c ≠ '?') :
    (sepJoin q kw).buffer =
      q.buffer ++ (if q.separated then kw.data
        else if q.buffer.isEmpty then [] else " ".data) := by
  unfold sepJoin
  by_cases hs : q.separated = true
  · rw [if_pos hs, if_pos hs]
    exact appendBuffer_buffer_noQ q kw hk
  · rw [if_neg hs, if_neg hs]
    by_cases hb : q.buffer.isEmpty = true
    · rw [if_pos hb, if_pos hb]
      simp
    · rw [if_neg hb, if_neg hb]
      exact appendBuffer_buffer_noQ q " " (by decide)

theorem buf_ext_trans {q1 q2 q3 : Query} (h1 : ∃ t, q2.buffer = q1.buffer ++ t)
    (h2 : ∃ t, q3.buffer = q2.buffer ++ t) : ∃ t, q3.buffer = q1.buffer ++ t := by
  obtain ⟨a, ha⟩ := h1
  obtain ⟨b, hb⟩ := h2
  exact ⟨a ++ b, by rw [hb, ha, List.append_assoc]⟩

theorem buf_ext_trans_mid (q2 : Query) {q1 q3 : Query}
    (h1 : ∃ t, q2.buffer = q1.buffer ++ t) (h2 : ∃ t, q3.buffer = q2.buffer ++ t) :
    ∃ t, q3.buffer = q1.buffer ++ t :=
  buf_ext_trans h1 h2

theorem ite_append_buf (c : Prop) [Decidable c] (q : Query) (s : String) :
    ∃ t, (if c then appendBuffer q s else q).buffer = q.buffer ++ t := by
  split
  · exact appendChars_buffer_extend q s.data
  · exact ⟨[], by simp⟩

theorem spliceQuery_eq_false (b q : Query) (hs : q.separated = false) :
    spliceQuery b q =
      appendChars
        { q with args := q.args ++ b.args,
                 arg_indexes := q.arg_indexes ++ b.arg_indexes.map (fun i => i + q.cursor),
                 cursor := q.cursor + b.cursor } b.buffer := by
  unfold spliceQuery
  simp only [appendChars_separated, appendBuffer_separated, hs]
  simp

theorem spliceQuery_eq_true (b q : Query) (hs : q.separated = true) :
    spliceQuery b q =
      appendBuffer
        (appendChars
          { appendBuffer { q with args := q.args ++ b.args } "(" with
              arg_indexes := (appendBuffer { q with args := q.args ++ b.args } "(").arg_indexes
                ++ b.arg_indexes.map
                  (fun i => i + (appendBuffer { q with args := q.args ++ b.args } "(").cursor),
              cursor := (appendBuffer { q with args := q.args ++ b.args } "(").cursor + b.cursor }
          b.buffer) ")" := by
  unfold spliceQuery
  simp only [appendChars_separated, appendBuffer_separated, hs]
  simp [appendChars_separated, appendBuffer_separated]

theorem splice_tail_buf (p : Query) (idx2 : List Nat) (cur2 : Nat) (l : List Char) (s : String) :
    ∃ t, (appendBuffer (appendChars { p with arg_indexes := idx2, cursor := cur2 } l) s).buffer
        = p.buffer ++ t :=
  buf_ext_trans (appendChars_buffer_extend { p with arg_indexes := idx2, cursor := cur2 } l)
    (appendChars_buffer_extend _ s.data)

theorem spliceQuery_buf (b q : Query) : ∃ t, (spliceQuery b q).buffer = q.buffer ++ t := by
  by_cases hs : q.separated = true
  · rw [spliceQuery_eq_true b q hs]
    exact buf_ext_trans_mid (appendBuffer { q with args := q.args ++ b.args } "(")
      (appendChars_buffer_extend _ "(".data) (splice_tail_buf _ _ _ _ ")")
  · rw [spliceQuery_eq_false b q (by simpa using hs)]
    exact appendChars_buffer_extend _ b.buffer

mutual
theorem pushFrag_buf : ∀ (f : Frag) (q : Query), ∃ t, (pushFrag f q).buffer = q.buffer ++ t
  | Frag.text s a, q => appendChars_buffer_extend q s.data
  | Frag.clos ops, q => by
    unfold pushFrag
    split
    · refine buf_ext_trans_mid (appendBuffer { q with separated := false } "(") ?_ ?_
      · exact appendChars_buffer_extend _ "(".data
      · refine buf_ext_trans_mid
          (runOps ops (appendBuffer { q with separated := false } "(")) ?_ ?_
        · exact runOps_buf ops _
        · exact appendChars_buffer_extend _ ")".data
    · exact runOps_buf ops q
  | Frag.sub ops, q => spliceQuery_buf (runOps ops Query.emptyQ) q

theorem runOp_buf : ∀ (op : Op) (q : Query), ∃ t, (runOp op q).buffer = q.buffer ++ t
  | Op.push f, q => by
    unfold runOp
    refine buf_ext_trans_mid (if ({ q with separated := false } : Query).buffer.isEmpty then
        ({ q with separated := false } : Query)
      else appendBuffer { q with separated := false } " ") ?_ ?_
    · split
      · exact ⟨[], by simp⟩
      · exact appendChars_buffer_extend _ " ".data
    · exact pushFrag_buf f _
  | Op.and f, q => by
    refine buf_ext_trans_mid (sepJoin q " AND ") ?_ (pushFrag_buf f _)
    unfold sepJoin
    split
    · exact appendChars_buffer_extend _ " AND ".data
    · split
      · exact ⟨[], by simp⟩
      · exact appendChars_buffer_extend _ " ".data
  | Op.or f, q => by
    refine buf_ext_trans_mid (sepJoin q " OR ") ?_ (pushFrag_buf f _)
    unfold sepJoin
    split
    · exact appendChars_buffer_extend _ " OR ".data
    · split
      · exact ⟨[], by simp⟩
      · exact appendChars_buffer_extend _ " ".data
  | Op.comma f, q => by
    refine buf_ext_trans_mid (sepJoin q ",") ?_ (pushFrag_buf f _)
    unfold sepJoin
    split
    · exact appendChars_buffer_extend _ ",".data
    · split
      · exact ⟨[], by simp⟩
      · exact appendChars_buffer_extend _ " ".data

theorem runOps_buf : ∀ (ops : List Op) (q : Query), ∃ t, (runOps ops q).buffer = q.buffer ++ t
  | [], q => ⟨[], by simp [runOps]⟩
  | op :: ops, q =>
    buf_ext_trans (runOp_buf op q) (runOps_buf ops (runOp op q))
end

/-! ## Library of lemmas about the migration runner -/

theorem execStmts_cons (exc : String → Bool) (s : List Char) (rest : List (List Char)) :
    execStmts exc (s :: rest) =
      if isBlank s then execStmts exc rest
      else if exc s.asString then
        ((execStmts exc rest).1, s.asString :: (execStmts exc rest).2)
      else (false, [s.asString]) := rfl

theorem execStmts_true_iff (exc : String → Bool) (l : List (List Char)) :
    (execStmts exc l).1 = true ↔
      ∀ s ∈ l.filter (fun s => !isBlank s), exc s.asString = true := by
  induction l with
  | nil => simp [execStmts]
  | cons s rest ih =>
    rw [execStmts_cons]
    by_cases hb : isBlank s = true
    · rw [if_pos hb, ih]
      simp [hb]
    · rw [if_neg hb]
      by_cases he : exc s.asString = true
      · rw [if_pos he]
        simp only [List.filter_cons]
        rw [show (!isBlank s) = true by simpa using hb]
        simp only [if_true]
        constructor
        · intro h t ht
          rcases List.mem_cons.mp ht with h1 | h1
          · exact h1 ▸ he
          · exact ih.mp h t h1
        · intro h
          exact ih.mpr (fun t ht => h t (List.mem_cons_of_mem s ht))
      · rw [if_neg he]
        simp only [List.filter_cons]
        rw [show (!isBlank s) = true by simpa using hb]
        simp only [if_true]
        constructor
        · intro h; exact absurd h (by simp)
        · intro h
          exact absurd (h s (List.mem_cons_self s _)) he

theorem execStmts_log_of_true (exc : String → Bool) (l : List (List Char))
    (h : (execStmts exc l).1 = true) :
    (execStmts exc l).2 = (l.filter (fun s => !isBlank s)).map List.asString := by
  induction l with
  | nil => simp [execStmts]
  | cons s rest ih =>
    rw [execStmts_cons] at h ⊢
    by_cases hb : isBlank s = true
    · rw [if_pos hb] at h ⊢
      rw [ih h]
      simp [hb]
    · rw [if_neg hb] at h ⊢
      by_cases he : exc s.asString = true
      · rw [if_pos he] at h ⊢
        simp only [List.filter_cons]
        rw [show (!isBlank s) = true by simpa using hb]
        simp only [if_true, List.map_cons]
        rw [ih (by simpa using h)]
      · rw [if_neg he] at h
        exact absurd h (by simp)

theorem applyMigration_ne_checksum (exc : String → Bool) (db : List MigRow) (m : Migration) :
    applyMigration exc db m ≠ Except.error MigrationError.ChecksumError := by
  unfold applyMigration
  split
  · split <;> simp
  · simp

theorem migrateLoop_nil (exc : String → Bool) (cur db : List MigRow) :
    migrateLoop exc cur [] db = ⟨none, db, []⟩ := rfl

theorem migrateLoop_cons (exc : String → Bool) (cur : List MigRow) (m : Migration)
    (ms : List Migration) (db : List MigRow) :
    migrateLoop exc cur (m :: ms) db =
      match cur.find? (fun a => a.version == m.version) with
      | none =>
        match applyMigration exc db m with
        | Except.ok db1 =>
          ⟨(migrateLoop exc cur ms db1).error, (migrateLoop exc cur ms db1).db,
            m.version :: (migrateLoop exc cur ms db1).applied⟩
        | Except.error e => ⟨some e, db, []⟩
      | some a =>
        if a.checksum == m.checksum then migrateLoop exc cur ms db
        else ⟨some MigrationError.ChecksumError, db, []⟩ := rfl

theorem migrateLoop_append (exc : String → Bool) (cur : List MigRow)
    (xs ys : List Migration) :
    ∀ db : List MigRow,
      migrateLoop exc cur (xs ++ ys) db =
        if (migrateLoop exc cur xs db).error = none then
          ⟨(migrateLoop exc cur ys (migrateLoop exc cur xs db).db).error,
           (migrateLoop exc cur ys (migrateLoop exc cur xs db).db).db,
           (migrateLoop exc cur xs db).applied
             ++ (migrateLoop exc cur ys (migrateLoop exc cur xs db).db).applied⟩
        else migrateLoop exc cur xs db := by
  induction xs with
  | nil =>
    intro db
    rw [List.nil_append, migrateLoop_nil]
    simp
  | cons m xs ih =>
    intro db
    rw [List.cons_append, migrateLoop_cons exc cur m (xs ++ ys) db,
      migrateLoop_cons exc cur m xs db]
    cases hf : cur.find? (fun a => a.version == m.version) with
    | none =>
      cases happ : applyMigration exc db m with
      | ok db1 =>
        simp only []
        rw [ih db1]
        by_cases he : (migrateLoop exc cur xs db1).error = none
        · rw [if_pos he, if_pos (by simpa using he)]
          simp
        · rw [if_neg he, if_neg (by simpa using he)]
      | error e =>
        simp only []
        rw [if_neg (by simp)]
    | some a =>
      dsimp only
      by_cases hc : (a.checksum == m.checksum) = true
      · rw [if_pos hc, if_pos hc]
        exact ih db
      · rw [if_neg hc, if_neg hc, if_neg (by simp)]

theorem find?_version_unique (db : List MigRow) (hnd : (db.map MigRow.version).Nodup)
    (r : MigRow) (hr : r ∈ db) :
    db.find? (fun a => a.version == r.version) = some r := by
  induction db with
  | nil => cases hr
  | cons b db ih =>
    have hnd2 : b.version ∉ db.map MigRow.version ∧ (db.map MigRow.version).Nodup := by
      rw [List.map_cons] at hnd
      exact List.nodup_cons.mp hnd
    rcases List.mem_cons.mp hr with h | h
    · subst h
      exact List.find?_cons_of_pos _ (by simp)
    · by_cases hb : (b.version == r.version) = true
      · exfalso
        have hbv : b.version = r.version := by simpa using hb
        exact hnd2.1 (hbv ▸ List.mem_map_of_mem MigRow.version h)
      · rw [List.find?_cons_of_neg]
        · exact ih hnd2.2 h
        · exact hb

theorem migrateLoop_checksum_fwd (exc : String → Bool) (cur : List MigRow)
    (migs : List Migration) :
    ∀ db2 : List MigRow,
      (migrateLoop exc cur migs db2).error = some MigrationError.ChecksumError →
      ∃ pre m post, migs = pre ++ m :: post ∧
        (migrateLoop exc cur pre db2).error = none ∧
        ∃ a, cur.find? (fun x => x.version == m.version) = some a ∧
          a.checksum ≠ m.checksum := by
  induction migs with
  | nil =>
    intro db2 h
    rw [migrateLoop_nil] at h
    cases h
  | cons m ms ih =>
    intro db2 h
    rw [migrateLoop_cons] at h
    cases hf : cur.find? (fun a => a.version == m.version) with
    | none =>
      rw [hf] at h
      dsimp only at h
      cases happ : applyMigration exc db2 m with
      | ok db1 =>
        rw [happ] at h
        dsimp only at h
        obtain ⟨pre, m1, post, hsplit, hpre, a, hfa, hca⟩ := ih db1 h
        refine ⟨m :: pre, m1, post, by rw [hsplit]; rfl, ?_, a, hfa, hca⟩
        rw [migrateLoop_cons, hf, happ]
        exact hpre
      | error e =>
        rw [happ] at h
        dsimp only at h
        have he : e = MigrationError.ChecksumError := Option.some.inj h
        rw [he] at happ
        exact absurd happ (applyMigration_ne_checksum exc db2 m)
    | some a =>
      rw [hf] at h
      dsimp only at h
      by_cases hc : (a.checksum == m.checksum) = true
      · rw [if_pos hc] at h
        obtain ⟨pre, m1, post, hsplit, hpre, a1, hfa, hca⟩ := ih db2 h
        refine ⟨m :: pre, m1, post, by rw [hsplit]; rfl, ?_, a1, hfa, hca⟩
        rw [migrateLoop_cons, hf]
        dsimp only
        rw [if_pos hc]
        exact hpre
      · refine ⟨[], m, ms, rfl, by rw [migrateLoop_nil], a, hf, by simpa using hc⟩

theorem migrateLoop_all_skip (exc : String → Bool) (cur : List MigRow)
    (migs : List Migration)
    (h : ∀ m ∈ migs, ∃ a, cur.find? (fun x => x.version == m.version) = some a ∧
      a.checksum = m.checksum) :
    ∀ db2 : List MigRow, migrateLoop exc cur migs db2 = ⟨none, db2, []⟩ := by
  induction migs with
  | nil => intro db2; exact migrateLoop_nil exc cur db2
  | cons m ms ih =>
    intro db2
    obtain ⟨a, hfa, hca⟩ := h m (List.mem_cons_self m ms)
    rw [migrateLoop_cons, hfa]
    dsimp only
    rw [if_pos (by simpa using hca)]
    exact ih (fun m1 hm1 => h m1 (List.mem_cons_of_mem m hm1)) db2

theorem migrateLoop_ok_spec (exc : String → Bool) (cur : List MigRow)
    (migs : List Migration) :
    ∀ db : List MigRow, (migrateLoop exc cur migs db).error = none →
      (∃ ext, (migrateLoop exc cur migs db).db = db ++ ext) ∧
      (∀ m ∈ migs,
        (∃ a, cur.find? (fun x => x.version == m.version) = some a ∧
          a.checksum = m.checksum) ∨
        (⟨m.version, m.name, m.checksum⟩ : MigRow) ∈ (migrateLoop exc cur migs db).db) ∧
      ((db.map MigRow.version).Nodup →
        ((migrateLoop exc cur migs db).db.map MigRow.version).Nodup) ∧
      (migrateLoop exc cur migs db).applied.Nodup ∧
      (∀ v ∈ (migrateLoop exc cur migs db).applied, ∀ r ∈ db, r.version ≠ v) := by
  induction migs with
  | nil =>
    intro db _
    rw [migrateLoop_nil]
    exact ⟨⟨[], by simp⟩, by simp, fun h => h, List.nodup_nil, by simp⟩
  | cons m ms ih =>
    intro db h
    rw [migrateLoop_cons] at h ⊢
    cases hf : cur.find? (fun a => a.version == m.version) with
    | none =>
      rw [hf] at h
      dsimp only at h ⊢
      cases happ : applyMigration exc db m with
      | ok db1 =>
        rw [happ] at h
        try dsimp only at h ⊢
        have hdb1 : db1 = db ++ [⟨m.version, m.name, m.checksum⟩] := by
          unfold applyMigration at happ
          split at happ
          · split at happ
            · cases happ
            · exact (Except.ok.inj happ).symm
          · cases happ
        have hfresh : ∀ r ∈ db, r.version ≠ m.version := by
          unfold applyMigration at happ
          split at happ
          · split at happ
            · cases happ
            · rename_i hany
              intro r hr hv
              have hx : db.any (fun row => row.version == m.version) = true :=
                List.any_eq_true.mpr ⟨r, hr, by simpa using hv⟩
              exact absurd hx (by simpa using hany)
          · cases happ
        obtain ⟨⟨ext, hext⟩, hall, hndp, hnodup, happlied⟩ := ih db1 h
        refine ⟨⟨⟨m.version, m.name, m.checksum⟩ :: ext, by rw [hext, hdb1]; simp⟩,
          ?_, ?_, ?_, ?_⟩
        · intro m1 hm1
          rcases List.mem_cons.mp hm1 with h1 | h1
          · subst h1
            right
            rw [hext, hdb1]
            simp
          · exact hall m1 h1
        · intro hnd
          apply hndp
          rw [hdb1, List.map_append]
          rw [List.nodup_append]
          refine ⟨hnd, by simp, ?_⟩
          intro v hv
          simp only [List.map_cons, List.map_nil, List.mem_singleton]
          obtain ⟨r, hr, hrv⟩ := List.mem_map.mp hv
          intro hveq
          exact hfresh r hr (by rw [← hrv] at hveq; exact hveq)
        · refine List.nodup_cons.mpr ⟨?_, hnodup⟩
          intro hmem
          exact happlied m.version hmem ⟨m.version, m.name, m.checksum⟩
            (by rw [hdb1]; simp) rfl
        · intro v hv r hr
          rcases List.mem_cons.mp hv with h1 | h1
          · exact h1 ▸ fun hveq => hfresh r hr hveq
          · exact happlied v h1 r (by rw [hdb1]; simp [hr])
      | error e =>
        rw [happ] at h
        try dsimp only at h
        cases h
    | some a =>
      rw [hf] at h
      try dsimp only at h ⊢
      by_cases hc : (a.checksum == m.checksum) = true
      · rw [if_pos hc] at h ⊢
        obtain ⟨hext, hall, hndp, hnodup, happlied⟩ := ih db h
        refine ⟨hext, ?_, hndp, hnodup, happlied⟩
        intro m1 hm1
        rcases List.mem_cons.mp hm1 with h1 | h1
        · subst h1
          exact Or.inl ⟨a, hf, by simpa using hc⟩
        · exact hall m1 h1
      · rw [if_neg hc] at h
        cases h

end Pgutils

namespace Pgutils

/-! ## Theorems for the claims -/

/-- C4: `migrate` returns the distinct `ChecksumError` exactly when,
scanning the records in the supplied order, a record is reached whose
version has a row in the bookkeeping table (as fetched at the start of the
call) with a different stored checksum, every earlier record having been
skipped or applied without error; at that point it aborts at once: no
further migration is applied, and the table and applied log are exactly
those of the successful prefix. -/
theorem migrate_checksum_spec (exc : String → Bool) (migs : List Migration)
    (db : List MigRow) (hnd : (db.map MigRow.version).Nodup) :
    ((migrate exc migs db).error = some MigrationError.ChecksumError ↔
      ∃ pre m post, migs = pre ++ m :: post ∧ (migrate exc pre db).error = none ∧
        ∃ a ∈ db, a.version = m.version ∧ a.checksum ≠ m.checksum) ∧
    (∀ pre m post, migs = pre ++ m :: post → (migrate exc pre db).error = none →
      (∃ a ∈ db, a.version = m.version ∧ a.checksum ≠ m.checksum) →
      migrate exc migs db = ⟨some MigrationError.ChecksumError,
        (migrate exc pre db).db, (migrate exc pre db).applied⟩) := by
  have habort : ∀ pre m post, migs = pre ++ m :: post →
      (migrate exc pre db).error = none →
      (∃ a ∈ db, a.version = m.version ∧ a.checksum ≠ m.checksum) →
      migrate exc migs db = ⟨some MigrationError.ChecksumError,
        (migrate exc pre db).db, (migrate exc pre db).applied⟩ := by
    intro pre m post hsplit hpre hex
    obtain ⟨a, ha, hav, hac⟩ := hex
    have hfind : db.find? (fun x => x.version == m.version) = some a := by
      have hu := find?_version_unique db hnd a ha
      rw [hav] at hu
      exact hu
    show migrateLoop exc db migs db = _
    rw [hsplit, migrateLoop_append exc db pre (m :: post) db]
    have hpre1 : (migrateLoop exc db pre db).error = none := hpre
    rw [if_pos hpre1]
    have hstep : migrateLoop exc db (m :: post) (migrateLoop exc db pre db).db =
        ⟨some MigrationError.ChecksumError, (migrateLoop exc db pre db).db, []⟩ := by
      rw [migrateLoop_cons, hfind]
      dsimp only
      rw [if_neg (by simpa using hac)]
    rw [hstep]
    simp [migrate]
  refine ⟨⟨?_, ?_⟩, habort⟩
  · intro h
    obtain ⟨pre, m, post, hsplit, hpre, a, hfa, hca⟩ :=
      migrateLoop_checksum_fwd exc db migs db h
    have ham : a ∈ db := List.mem_of_find?_eq_some hfa
    have hav : a.version = m.version := by simpa using List.find?_some hfa
    exact ⟨pre, m, post, hsplit, hpre, a, ham, hav, hca⟩
  · intro h
    obtain ⟨pre, m, post, hsplit, hpre, hex⟩ := h
    rw [habort pre m post hsplit hpre hex]

/-- Witness for C4: one migration whose version already has a row with a
different stored checksum makes `migrate` return `ChecksumError`. -/
theorem migrate_checksum_spec_witness :
    (migrate (fun _ => true) [mig1] [driftRow]).error =
      some MigrationError.ChecksumError :=
  ((migrate_checksum_spec (fun _ => true) [mig1] [driftRow] (by decide)).1).mpr
    ⟨[], mig1, [], rfl, rfl, driftRow, by decide, by decide, by decide⟩

/-- C5: if `migrate` succeeds then the same migration set applied a second
time against the resulting table succeeds with zero apply actions (its
applied log is empty and the table is unchanged), and the first run
applied each migration at most once (its applied log has no duplicate
versions). -/
theorem migrate_idempotent (exc exc2 : String → Bool) (migs : List Migration)
    (db : List MigRow) (hnd : (db.map MigRow.version).Nodup)
    (hok : (migrate exc migs db).error = none) :
    migrate exc2 migs ((migrate exc migs db).db) =
      ⟨none, (migrate exc migs db).db, []⟩ ∧
    (migrate exc migs db).applied.Nodup := by
  obtain ⟨⟨ext, hext⟩, hall, hndp, hnodup, _⟩ := migrateLoop_ok_spec exc db migs db hok
  refine ⟨?_, hnodup⟩
  apply migrateLoop_all_skip
  intro m hm
  have hnd2 : (((migrate exc migs db).db).map MigRow.version).Nodup := hndp hnd
  rcases hall m hm with ⟨a, hfa, hca⟩ | hmem
  · have ham : a ∈ db := List.mem_of_find?_eq_some hfa
    have hav : a.version = m.version := by simpa using List.find?_some hfa
    have hamf : a ∈ (migrate exc migs db).db := by
      show a ∈ (migrateLoop exc db migs db).db
      rw [hext]
      exact List.mem_append_left _ ham
    have hu := find?_version_unique ((migrate exc migs db).db) hnd2 a hamf
    rw [hav] at hu
    exact ⟨a, hu, hca⟩
  · have hu := find?_version_unique ((migrate exc migs db).db) hnd2 _ hmem
    exact ⟨⟨m.version, m.name, m.checksum⟩, hu, rfl⟩

/-- Witness for C5: a single migration applied to an empty table, then
re-applied against the resulting table. -/
theorem migrate_idempotent_witness :
    migrate (fun _ => true) [mig1] ((migrate (fun _ => true) [mig1] []).db) =
      ⟨none, (migrate (fun _ => true) [mig1] []).db, []⟩ ∧
    (migrate (fun _ => true) [mig1] []).applied.Nodup :=
  migrate_idempotent (fun _ => true) (fun _ => true) [mig1] [] (by decide) (by decide)

/-- C6: `apply_migration` splits the SQL body on `;`, skips fragments that
are empty after trimming, executes the remaining statements in order
inside the transaction; when all succeed (and the bookkeeping insert does
not collide on the version primary key) it commits exactly one new row
`(version, name, checksum)`; when a statement fails the transaction is not
committed (the table is unchanged) and the error propagates out of
`migrate`, aborting it with the failing migration's error and the table as
it was before that migration. -/
theorem apply_migration_spec (exc : String → Bool) (db : List MigRow) (m : Migration) :
    ((∀ s ∈ nonEmptyStmts m.sql, exc s = true) → (∀ r ∈ db, r.version ≠ m.version) →
      applyMigration exc db m = Except.ok (db ++ [⟨m.version, m.name, m.checksum⟩]) ∧
      (execStmts exc (splitSemi m.sql.data)).2 = nonEmptyStmts m.sql) ∧
    ((∃ s ∈ nonEmptyStmts m.sql, exc s = false) →
      applyMigration exc db m = Except.error MigrationError.PostgresError) ∧
    (∀ (cur : List MigRow) (ms : List Migration) (db2 : List MigRow) (e : MigrationError),
      cur.find? (fun a => a.version == m.version) = none →
      applyMigration exc db2 m = Except.error e →
      migrateLoop exc cur (m :: ms) db2 = ⟨some e, db2, []⟩) := by
  refine ⟨?_, ?_, ?_⟩
  · intro hall hfresh
    have hT : (execStmts exc (splitSemi m.sql.data)).1 = true :=
      (execStmts_true_iff exc _).mpr
        (fun s hs => hall s.asString (List.mem_map_of_mem List.asString hs))
    have hanyf : db.any (fun row => row.version == m.version) = false :=
      List.any_eq_false.mpr (fun r hr => by simpa using hfresh r hr)
    constructor
    · unfold applyMigration
      rw [if_pos hT, if_neg (by simp [hanyf])]
    · exact execStmts_log_of_true exc _ hT
  · intro hex
    obtain ⟨s, hs, hfail⟩ := hex
    obtain ⟨s1, hs1, hs1e⟩ := List.mem_map.mp hs
    have hF : ¬(execStmts exc (splitSemi m.sql.data)).1 = true := by
      intro hT
      have := (execStmts_true_iff exc _).mp hT s1 hs1
      rw [hs1e] at this
      exact absurd this (by simp [hfail])
    unfold applyMigration
    rw [if_neg hF]
  · intro cur ms db2 e hf happ
    rw [migrateLoop_cons, hf]
    dsimp only
    rw [happ]

/-- Witness for C6: a two-statement migration with a trailing `;` applied
to an empty table commits one bookkeeping row, and its executed-statement
log is exactly the two non-empty fragments in order. -/
theorem apply_migration_spec_witness :
    applyMigration (fun _ => true) [] mig2 =
      Except.ok [⟨mig2.version, mig2.name, mig2.checksum⟩] ∧
    (execStmts (fun _ => true) (splitSemi mig2.sql.data)).2 = nonEmptyStmts mig2.sql :=
  (apply_migration_spec (fun _ => true) [] mig2).1 (by decide) (by decide)

/-- C1: a placeholder whose recorded byte offset is 0 is dropped by the
`Display` impl. `Query::new(("?", 5))` records the placeholder (offset 0,
one argument) but renders to `""` with no `$1` marker, because the window
loop writes a marker only when the window start is non-zero: the claim's
offset-0 case fails on the code. -/
theorem leading_placeholder_dropped_by_render :
    (buildQ leadingPlaceholderOps).arg_indexes = [0] ∧
    (buildQ leadingPlaceholderOps).args = [5] ∧
    render (buildQ leadingPlaceholderOps) = some "" := by
  refine ⟨rfl, rfl, ?_⟩
  rfl

/-- C3: after splicing the built query `Query::new("y")` into a query,
the cursor has advanced by twice the spliced buffer's byte length (once
by `cursor += self.cursor`, once again while appending the spliced buffer
through the character loop), so the next placeholder-bearing fragment
records offset 7 although the buffer is only 6 bytes long, and rendering
slices `buffer[0..7]` out of range (a panic, modelled as `none`). -/
theorem placeholder_after_splice_breaks_render :
    (buildQ placeholderAfterSpliceOps).buffer = "x y z=".data ∧
    byteLen (buildQ placeholderAfterSpliceOps).buffer = 6 ∧
    (buildQ placeholderAfterSpliceOps).arg_indexes = [7] ∧
    render (buildQ placeholderAfterSpliceOps) = none := by
  refine ⟨rfl, rfl, rfl, ?_⟩
  rfl

/-- C2 (counterexample): the query built by splicing `Query::new("ab")`
into an empty query and then pushing `("?", 1, 2)` violates the claimed
invariant: its single recorded offset (5) exceeds `buffer.len()` (3), and
`args.len()` (2) differs from `arg_indexes.len()` (1). -/
theorem invariant_violated_at_concrete_query :
    ¬ ((∀ i ∈ (buildQ spliceThenUnbalancedOps).arg_indexes,
          i ≤ byteLen (buildQ spliceThenUnbalancedOps).buffer) ∧
       (buildQ spliceThenUnbalancedOps).args.length =
          (buildQ spliceThenUnbalancedOps).arg_indexes.length) := by
  intro h
  have hm : 5 ∈ (buildQ spliceThenUnbalancedOps).arg_indexes := by decide
  have hb : byteLen (buildQ spliceThenUnbalancedOps).buffer = 3 := by rfl
  have h5 : (5 : Nat) ≤ 3 := hb ▸ h.1 5 hm
  omega

/-- C2 (amended): for every build sequence, `arg_indexes` is monotonically
non-decreasing and every recorded offset is at most the internal cursor,
which is itself at least `buffer.len()`; and `args.len() ==
arg_indexes.len()` holds whenever every pushed fragment is balanced
(supplies exactly as many values as `?` characters, recursively through
closures and spliced sub-queries). The stronger original claim — offsets
at most `buffer.len()` and the length equation for arbitrary fragments —
fails, see the counterexample. -/
theorem builder_state_invariant (ops : List Op) :
    (buildQ ops).arg_indexes.Chain' (fun a b => a ≤ b) ∧
    (∀ i ∈ (buildQ ops).arg_indexes, i ≤ (buildQ ops).cursor) ∧
    byteLen (buildQ ops).buffer ≤ (buildQ ops).cursor ∧
    (opsBalanced ops = true →
      (buildQ ops).args.length = (buildQ ops).arg_indexes.length) := by
  have h := runOps_inv ops Query.emptyQ emptyQ_inv
  refine ⟨h.1, h.2.1, h.2.2, fun hb => ?_⟩
  have hlen := runOps_len ops Query.emptyQ hb
  have hz1 : Query.emptyQ.args.length = 0 := rfl
  have hz2 : Query.emptyQ.arg_indexes.length = 0 := rfl
  show (runOps ops Query.emptyQ).args.length = (runOps ops Query.emptyQ).arg_indexes.length
  omega

/-- Witness for C2 (amended) at the concrete balanced sequence `c8Ops`. -/
theorem builder_state_invariant_witness :
    opsBalanced c8Ops = true ∧
    (buildQ c8Ops).args.length = (buildQ c8Ops).arg_indexes.length ∧
    byteLen (buildQ c8Ops).buffer ≤ (buildQ c8Ops).cursor :=
  ⟨by decide, (builder_state_invariant c8Ops).2.2.2 (by decide),
    (builder_state_invariant c8Ops).2.2.1⟩

/-- One `and(text)` call with a `?`-free text fragment: the buffer gains
the separator dictated by the `separated` flag and buffer emptiness, then
the fragment text; the flag is set afterwards. -/
theorem and_text_step (p : Query) (s : String) (hs : ∀ c ∈ s.data, c ≠ '?') :
    (runOp (Op.and (Frag.text s [])) p).buffer =
      p.buffer ++ (if p.separated then " AND ".data
        else if p.buffer.isEmpty then [] else " ".data) ++ s.data ∧
    (runOp (Op.and (Frag.text s [])) p).separated = true := by
  constructor
  · show (appendChars (sepJoin p " AND ") s.data).buffer = _
    have h := congrArg Query.buffer (appendChars_noQ_eq (sepJoin p " AND ") s.data hs)
    simp only [] at h
    rw [h]
    show (sepJoin p " AND ").buffer ++ s.data = _
    rw [sepJoin_buffer p " AND " (by decide)]
  · rfl

/-- C7: for every statement `q` and fragment `f`, the joining calls
`and`/`or`/`comma` prepend exactly `" AND "` / `" OR "` / `","` when the
`separated` flag is set, otherwise a single space exactly when the buffer
is non-empty; each sets `separated := true`; and consequently chaining
`and(x); and(y); and(z)` on a non-separated statement with a non-empty
buffer yields a single `" AND "` between each consecutive pair and no
keyword before `x`. -/
theorem joiner_separator_spec (q : Query) (f : Frag) (x y z : String) :
    (∃ t, (runOp (Op.and f) q).buffer =
      q.buffer ++ (if q.separated then " AND ".data
        else if q.buffer.isEmpty then [] else " ".data) ++ t) ∧
    (∃ t, (runOp (Op.or f) q).buffer =
      q.buffer ++ (if q.separated then " OR ".data
        else if q.buffer.isEmpty then [] else " ".data) ++ t) ∧
    (∃ t, (runOp (Op.comma f) q).buffer =
      q.buffer ++ (if q.separated then ",".data
        else if q.buffer.isEmpty then [] else " ".data) ++ t) ∧
    (runOp (Op.and f) q).separated = true ∧
    (runOp (Op.or f) q).separated = true ∧
    (runOp (Op.comma f) q).separated = true ∧
    (q.separated = false → q.buffer.isEmpty = false →
      (∀ c ∈ x.data, c ≠ '?') → (∀ c ∈ y.data, c ≠ '?') → (∀ c ∈ z.data, c ≠ '?') →
      (runOps [Op.and (Frag.text x []), Op.and (Frag.text y []), Op.and (Frag.text z [])]
          q).buffer =
        q.buffer ++ " ".data ++ x.data ++ " AND ".data ++ y.data ++ " AND ".data ++ z.data) := by
  refine ⟨?_, ?_, ?_, rfl, rfl, rfl, ?_⟩
  · obtain ⟨t, ht⟩ := pushFrag_buf f (sepJoin q " AND ")
    refine ⟨t, ?_⟩
    show (pushFrag f (sepJoin q " AND ")).buffer = _
    rw [ht, sepJoin_buffer q " AND " (by decide)]
  · obtain ⟨t, ht⟩ := pushFrag_buf f (sepJoin q " OR ")
    refine ⟨t, ?_⟩
    show (pushFrag f (sepJoin q " OR ")).buffer = _
    rw [ht, sepJoin_buffer q " OR " (by decide)]
  · obtain ⟨t, ht⟩ := pushFrag_buf f (sepJoin q ",")
    refine ⟨t, ?_⟩
    show (pushFrag f (sepJoin q ",")).buffer = _
    rw [ht, sepJoin_buffer q "," (by decide)]
  · intro hsep hne hx hy hz
    obtain ⟨b1, f1⟩ := and_text_step q x hx
    obtain ⟨b2, f2⟩ := and_text_step (runOp (Op.and (Frag.text x [])) q) y hy
    obtain ⟨b3, f3⟩ := and_text_step
      (runOp (Op.and (Frag.text y [])) (runOp (Op.and (Frag.text x [])) q)) z hz
    rw [hsep, hne] at b1
    rw [f1] at b2
    rw [f2] at b3
    show (runOp (Op.and (Frag.text z []))
      (runOp (Op.and (Frag.text y [])) (runOp (Op.and (Frag.text x [])) q))).buffer = _
    rw [b3, b2, b1]
    simp

/-- Witness for C7: the chain consequence at a concrete query. -/
theorem joiner_separator_spec_witness :
    (runOps [Op.and (Frag.text "a" []), Op.and (Frag.text "b" []), Op.and (Frag.text "c" [])]
        (buildQ [Op.push (Frag.text "WHERE" [])])).buffer =
      (buildQ [Op.push (Frag.text "WHERE" [])]).buffer ++ " ".data ++ "a".data
        ++ " AND ".data ++ "b".data ++ " AND ".data ++ "c".data :=
  (joiner_separator_spec (buildQ [Op.push (Frag.text "WHERE" [])])
      (Frag.text "a" []) "a" "b" "c").2.2.2.2.2.2
    (by decide) (by decide) (by decide) (by decide) (by decide)

/-- C9: a closure fragment pushed while `separated` is set has its output
wrapped in parentheses, with the flag cleared before the closure runs and
restored afterwards; pushed while `separated` is clear, the wrapper does
nothing: the result is exactly the closure's calls run on the query. -/
theorem closure_grouping_spec (ops : List Op) (q : Query) :
    (q.separated = false → pushFrag (Frag.clos ops) q = runOps ops q) ∧
    (q.separated = true →
      (appendBuffer { q with separated := false } "(").separated = false ∧
      (appendBuffer { q with separated := false } "(").buffer = q.buffer ++ "(".data ∧
      pushFrag (Frag.clos ops) q =
        appendBuffer { runOps ops (appendBuffer { q with separated := false } "(") with
          separated := true } ")" ∧
      (pushFrag (Frag.clos ops) q).separated = true ∧
      (pushFrag (Frag.clos ops) q).buffer =
        (runOps ops (appendBuffer { q with separated := false } "(")).buffer ++ ")".data) := by
  constructor
  · intro h
    show (if q.separated = true then _ else runOps ops q) = runOps ops q
    rw [if_neg (by simp [h])]
  · intro h
    have heq : pushFrag (Frag.clos ops) q =
        appendBuffer { runOps ops (appendBuffer { q with separated := false } "(") with
          separated := true } ")" := by
      show (if q.separated = true then _ else _) = _
      rw [if_pos h]
    refine ⟨?_, ?_, heq, ?_, ?_⟩
    · rw [appendBuffer_separated]
    · exact appendBuffer_buffer_noQ { q with separated := false } "(" (by decide)
    · rw [heq, appendBuffer_separated]
    · rw [heq]
      exact appendBuffer_buffer_noQ _ ")" (by decide)

/-- Witness for C9 at a concrete separated query and closure. -/
theorem closure_grouping_spec_witness :
    pushFrag (Frag.clos [Op.or (Frag.text "x" [])]) (buildQ [Op.and (Frag.text "u" [])]) =
      appendBuffer
        { runOps [Op.or (Frag.text "x" [])]
            (appendBuffer { buildQ [Op.and (Frag.text "u" [])] with separated := false } "(") with
          separated := true } ")" ∧
    (pushFrag (Frag.clos [Op.or (Frag.text "x" [])])
      (buildQ [Op.and (Frag.text "u" [])])).separated = true :=
  ⟨((closure_grouping_spec [Op.or (Frag.text "x" [])]
      (buildQ [Op.and (Frag.text "u" [])])).2 (by decide)).2.2.1,
   ((closure_grouping_spec [Op.or (Frag.text "x" [])]
      (buildQ [Op.and (Frag.text "u" [])])).2 (by decide)).2.2.2.1⟩

/-- C10: no reachable query's buffer contains a `?` character: the
character loop records a `?` only as a placeholder offset and never copies
it into the buffer, so the builder API cannot emit a literal question mark
in the rendered SQL outside the generated `$N` markers. -/
theorem buffer_never_has_question_mark (ops : List Op) : '?' ∉ (buildQ ops).buffer :=
  buildQ_noQ ops

/-- C8: the chain
`Query::new("SELECT").comma("a").comma("b").push("FROM t WHERE")
  .and("x=1").and(("y=?", 5))`
renders to exactly `"SELECT a,b FROM t WHERE x=1 AND y=$1"` and its
argument list is exactly `[5]`. -/
theorem c8_chain_renders_exactly :
    render (buildQ c8Ops) = some "SELECT a,b FROM t WHERE x=1 AND y=$1" ∧
    (buildQ c8Ops).args = [5] := by
  constructor
  · rfl
  · rfl

end Pgutils
